import Mathlib

/-!
Verification development for the Replacit find-and-replace engine.

The definitions below are a shallow embedding of the repository's core
modules: `src/core/replacer.js` (pattern compiler, match scanner, flat
replacer), `src/core/docxProcessor.js` (structured XML replacement), and the
application state machine of `src/main.js` (load / replace-all / undo).
Strings are modelled as `List Char` (JavaScript strings, code-unit indexed);
a thrown exception is modelled as `Except.error`.  The host `RegExp` engine
is modelled for the pattern fragment this code base exercises: literal
characters, backslash escapes of the operator characters, the word-boundary
escape, and the star quantifier; every pattern outside the fragment is a
compile error, as the host engine is for the concrete operators used in the
theorems below (an unbalanced parenthesis, a bare quantifier).  The scan
loops carry an explicit fuel argument set to its exact bound by the
wrappers, mirroring the source's loops, whose index strictly increases.
-/

deriving instance DecidableEq for Except

namespace Replacit

/-- Replacement options consumed by `buildRegex`
(`isCaseSensitive`, `isWholeWord`, `isRegex`). -/
structure Options where
  isCaseSensitive : Bool := false
  isWholeWord : Bool := false
  isRegex : Bool := false
deriving Repr, DecidableEq

/-- The operator characters of the character class in the source's
`escapeRegexChars`: `/[.*+?^${\x7d()|[\]\\]/g`. -/
def specialChars : List Char :=
  ['.', '*', '+', '?', '^', '$', '{', '}', '(', ')', '|', '[', ']', '\\']

/-- Membership in the escaped-character class. -/
def isSpecialChar (c : Char) : Bool := decide (c ∈ specialChars)

/-- Source `escapeRegexChars`: prefixes every operator character with a
backslash (`str.replace(/[...]/g, backslash-dollar-ampersand)`), a
per-character rewrite. -/
def escapeRegexChars (s : List Char) : List Char :=
  (s.map (fun c => if isSpecialChar c then ['\\', c] else [c])).flatten

/-- Atom of the modelled pattern fragment: a literal character or the
word-boundary assertion. -/
inductive RAtom where
  | lit (c : Char)
  | wordB
deriving Repr, DecidableEq

/-- A pattern piece: an atom, optionally under the star quantifier. -/
inductive RPiece where
  | once (a : RAtom)
  | star (a : RAtom)
deriving Repr, DecidableEq

/-- A parsed pattern is a sequence of pieces. -/
abbrev RPattern := List RPiece

/-- The atom denoted by an escaped character. -/
def escAtom (c : Char) : RAtom := if c = 'b' then RAtom.wordB else RAtom.lit c

/-- Whether a character may follow a backslash in the modelled fragment. -/
def escAllowed (c : Char) : Bool := c = 'b' || isSpecialChar c

/-- Parser for the modelled fragment of the host pattern syntax: plain
non-operator characters, backslash escapes of the operator characters, the
word-boundary escape, and a star quantifier on a single atom.  Patterns
outside the fragment are compile errors (`Except.error`), standing for the
host engine's thrown syntax error on the invalid patterns the development
uses concretely. -/
def parseRegex : List Char → Except Unit RPattern
  | [] => Except.ok []
  | ['\\'] => Except.error ()
  | '\\' :: c :: '*' :: rest =>
    if escAllowed c then (parseRegex rest).map (fun p => RPiece.star (escAtom c) :: p)
    else Except.error ()
  | '\\' :: c :: rest =>
    if escAllowed c then (parseRegex rest).map (fun p => RPiece.once (escAtom c) :: p)
    else Except.error ()
  | c :: '*' :: rest =>
    if isSpecialChar c then Except.error ()
    else (parseRegex rest).map (fun p => RPiece.star (RAtom.lit c) :: p)
  | c :: rest =>
    if isSpecialChar c then Except.error ()
    else (parseRegex rest).map (fun p => RPiece.once (RAtom.lit c) :: p)

/-- Character comparison under the optional ignore-case flag, the host's
case-insensitive comparison modelled by case folding. -/
def charEq (ci : Bool) (a b : Char) : Bool :=
  if ci then a.toLower = b.toLower else a = b

/-- Host word-character class: letters, digits, underscore. -/
def isWordChar (c : Char) : Bool := c.isAlphanum || c = '_'

/-- Whether the character at index `i` (if any) is a word character. -/
def wordAt (text : List Char) (i : Nat) : Bool :=
  match text[i]? with
  | some d => isWordChar d
  | none => false

/-- Single-atom match at position `i`: returns the end position on success.
A literal consumes one matching character; the word-boundary assertion is
zero-width and holds when exactly one side of `i` is a word character. -/
def atomMatch (ci : Bool) (text : List Char) (a : RAtom) (i : Nat) : Option Nat :=
  match a with
  | RAtom.lit c =>
    match text[i]? with
    | some d => if charEq ci d c then some (i + 1) else none
    | none => none
  | RAtom.wordB =>
    if (decide (0 < i) && wordAt text (i - 1)) ≠ wordAt text i then some i else none

/-- Positions reachable by repeating the atom starting at `i`, in increasing
order (`i` itself first).  The fuel bounds the repetition; a zero-width
repetition contributes no further position. -/
def starReach (ci : Bool) (text : List Char) (a : RAtom) : Nat → Nat → List Nat
  | 0, i => [i]
  | fuel + 1, i =>
    i :: (match atomMatch ci text a i with
      | some j => if i < j then starReach ci text a fuel j else []
      | none => [])

/-- Backtracking matcher for a parsed pattern over a list of candidate
start positions, tried in order: the end of the first (leftmost-greedy)
match, mirroring the host engine on this fragment.  A star piece proposes
its reachable extents greediest first as the candidate positions for the
remaining pieces.  The fuel bounds the backtracking depth; `piecesFuel`
below is a sufficient bound. -/
def pmF (ci : Bool) (text : List Char) : Nat → RPattern → List Nat → Option Nat
  | 0, _, _ => none
  | _ + 1, _, [] => none
  | _ + 1, [], j :: _ => some j
  | fuel + 1, RPiece.once a :: rest, j :: js =>
    (match atomMatch ci text a j with
      | some k =>
        match pmF ci text fuel rest [k] with
        | some e => some e
        | none => pmF ci text fuel (RPiece.once a :: rest) js
      | none => pmF ci text fuel (RPiece.once a :: rest) js)
  | fuel + 1, RPiece.star a :: rest, j :: js =>
    match pmF ci text fuel rest ((starReach ci text a (text.length + 1) j).reverse) with
    | some e => some e
    | none => pmF ci text fuel (RPiece.star a :: rest) js

/-- Fuel sufficient for `pmF`: the backtracking depth is bounded by one
unit per piece times one unit per candidate position, and candidate lists
never exceed the text length plus two. -/
def piecesFuel (text : List Char) (p : RPattern) : Nat :=
  (p.length + 1) * (text.length + 2) + 1

/-- Matcher for a parsed pattern: the end of the leftmost-greedy match at
position `i`, or `none`. -/
def piecesMatch (ci : Bool) (text : List Char) (p : RPattern) (i : Nat) : Option Nat :=
  pmF ci text (piecesFuel text p) p [i]

/-- A compiled pattern: parsed source plus the ignore-case flag.  The global
flag is always set in the source and is modelled by the scan drivers. -/
structure CompiledRegex where
  pat : RPattern
  ignoreCase : Bool
deriving Repr, DecidableEq

/-- The compiled pattern's matcher: match end at a given position. -/
def regexMatch (r : CompiledRegex) (text : List Char) (i : Nat) : Option Nat :=
  piecesMatch r.ignoreCase text r.pat i

/-- Source `buildRegex`: an empty pattern gives `null` (modelled `none`); a
literal pattern is escaped; whole-word wraps the source in word-boundary
escapes; flags are `g` or `gi` per `isCaseSensitive`; an invalid pattern is
the thrown compile error. -/
def buildRegex (pattern : List Char) (o : Options) : Except Unit (Option CompiledRegex) :=
  if pattern = [] then Except.ok none
  else
    let source := if o.isRegex then pattern else escapeRegexChars pattern
    let source2 := if o.isWholeWord then '\\' :: 'b' :: source ++ ['\\', 'b'] else source
    match parseRegex source2 with
    | Except.ok p => Except.ok (some ⟨p, !o.isCaseSensitive⟩)
    | Except.error e => Except.error e

/-- A match span as recorded by `findMatches`: start index, end index, and
the matched text (the source's `start`, `end`, `match` fields). -/
structure Span where
  start : Nat
  stop : Nat
  matched : List Char
deriving Repr, DecidableEq

/-- Slice of a list between two indices. -/
def sliceL (l : List Char) (s e : Nat) : List Char := (l.take e).drop s

/-- One `exec` step with fuel: the first position at or after `i` (and at
most the text length) where the matcher succeeds, with the match end. -/
def execFromF (m : List Char → Nat → Option Nat) (text : List Char) :
    Nat → Nat → Option (Nat × Nat)
  | 0, _ => none
  | fuel + 1, i =>
    if i ≤ text.length then
      match m text i with
      | some e => some (i, e)
      | none => execFromF m text fuel (i + 1)
    else none

/-- One `exec` step: searches from `i`; the wrapper's fuel is exact, as each
probe advances the position by one. -/
def execFrom (m : List Char → Nat → Option Nat) (text : List Char) (i : Nat) :
    Option (Nat × Nat) :=
  execFromF m text (text.length + 1 - i) i

/-- The `findMatches` exec loop with fuel: records each match, resumes at
the match end, and advances one position past a zero-length match (the
source's `lastIndex++` guard against infinite loops). -/
def findLoopF (m : List Char → Nat → Option Nat) (text : List Char) :
    Nat → Nat → List Span
  | 0, _ => []
  | fuel + 1, i =>
    match execFrom m text i with
    | none => []
    | some (s, e) =>
      { start := s, stop := e, matched := sliceL text s e } ::
        findLoopF m text fuel (if e ≤ s then s + 1 else e)

/-- The exec loop from position `i`; the wrapper's fuel is exact, as the
scan position strictly increases at every step. -/
def findLoop (m : List Char → Nat → Option Nat) (text : List Char) (i : Nat) : List Span :=
  findLoopF m text (text.length + 1 - i) i

/-- Result record of `findMatches`: count and positions. -/
structure MatchResult where
  count : Nat
  positions : List Span
deriving Repr, DecidableEq

/-- Source `findMatches`: builds the regex (the compile error propagates —
the source has no catch here), yields zero matches for the null regex, and
otherwise runs the exec loop from index 0. -/
def findMatches (text pattern : List Char) (o : Options) : Except Unit MatchResult :=
  match buildRegex pattern o with
  | Except.error e => Except.error e
  | Except.ok none => Except.ok ⟨0, []⟩
  | Except.ok (some r) =>
    let spans := findLoop (regexMatch r) text 0
    Except.ok ⟨spans.length, spans⟩

/-- Dollar-placeholder expansion of the host string replace: a doubled
dollar is a literal dollar and dollar-ampersand inserts the matched text;
anything else is copied (the modelled patterns have no capture groups). -/
def expandRepl (matched : List Char) : List Char → List Char
  | [] => []
  | '$' :: '$' :: rest => '$' :: expandRepl matched rest
  | '$' :: '&' :: rest => matched ++ expandRepl matched rest
  | c :: rest => c :: expandRepl matched rest

/-- Rebuilds a string from the scan's span list: text between matches is
copied verbatim, each matched span is replaced by the expanded
replacement. -/
def replaceSpans (text repl : List Char) : Nat → List Span → List Char
  | last, [] => text.drop last
  | last, sp :: rest =>
    sliceL text last sp.start ++ expandRepl sp.matched repl ++
      replaceSpans text repl sp.stop rest

/-- The host global string replace for a compiled regex. -/
def jsReplace (text : List Char) (r : CompiledRegex) (repl : List Char) : List Char :=
  replaceSpans text repl 0 (findLoop (regexMatch r) text 0)

/-- Source `replaceAll`: the null regex returns the input unchanged;
otherwise the host global replace; a compile error propagates. -/
def replaceAll (text pattern replacement : List Char) (o : Options) :
    Except Unit (List Char) :=
  match buildRegex pattern o with
  | Except.error e => Except.error e
  | Except.ok none => Except.ok text
  | Except.ok (some r) => Except.ok (jsReplace text r replacement)

/-! ### Structured-document (docx) machinery, from `src/core/docxProcessor.js` -/

/-- Parses one text tag at the head of the input, per the source's tag
pattern `<w:t([^>]*)>([^<]*)<\/w:t>` anchored at a position: the literal
opener, attributes up to the first closing angle bracket, the text up to
the first opening angle bracket, then the literal close tag.  Returns the
attributes, the text, and the remaining input. -/
def parseWTag (s : List Char) : Option (List Char × List Char × List Char) :=
  match s with
  | '<' :: 'w' :: ':' :: 't' :: s1 =>
    let attrs := s1.takeWhile (fun c => c ≠ '>')
    match s1.dropWhile (fun c => c ≠ '>') with
    | '>' :: s3 =>
      let txt := s3.takeWhile (fun c => c ≠ '<')
      match s3.dropWhile (fun c => c ≠ '<') with
      | '<' :: '/' :: 'w' :: ':' :: 't' :: '>' :: s5 => some (attrs, txt, s5)
      | _ => none
    | _ => none
  | _ => none

/-- A collected text segment of a paragraph, as in `replaceInParagraph`:
attributes, text, and the span of the whole tag in the paragraph string
(the source's `attrs`, `text`, `start`, `end`). -/
structure Seg where
  attrs : List Char
  text : List Char
  start : Nat
  stop : Nat
deriving Repr, DecidableEq

/-- The global tag scan of `replaceInParagraph` with fuel: at each position
either a tag match is collected (the scan resumes past it) or the scan
advances one character.  `off` is the absolute position of the current
suffix.  The fuel is canonical at the input length: every step consumes at
least one character. -/
def collectSegsF : Nat → List Char → Nat → List Seg
  | 0, _, _ => []
  | fuel + 1, s, off =>
    match parseWTag s with
    | some (attrs, txt, rest) =>
      let len := s.length - rest.length
      ⟨attrs, txt, off, off + len⟩ :: collectSegsF fuel rest (off + len)
    | none =>
      match s with
      | [] => []
      | _ :: cs => collectSegsF fuel cs (off + 1)

/-- All text-tag segments of a paragraph string, in scan order. -/
def collectSegs (s : List Char) : List Seg := collectSegsF s.length s 0

/-- Source `extractTextFromXml`: concatenates the text content of every
text tag (the source matches each whole tag globally and strips the opener
and closer from it; no tags give the empty string). -/
def extractTextFromXml (xml : List Char) : List Char :=
  ((collectSegs xml).map Seg.text).flatten

/-- Splices `repl` over the span from `s` to `e` of `l`
(`l.slice(0, s) + repl + l.slice(e)`). -/
def listSplice (l : List Char) (s e : Nat) (repl : List Char) : List Char :=
  l.take s ++ repl ++ l.drop e

/-- The attribute string forced onto a rewritten non-empty text tag. -/
def preserveAttr : List Char := " xml:space=\"preserve\"".toList

/-- The tag written back for segment index `i` in `replaceInParagraph`: the
first segment receives the whole replaced text, every other segment becomes
empty; a non-empty new text forces the whitespace-preservation attribute,
an empty one keeps the segment's original attributes. -/
def newTagFor (replacedText : List Char) (i : Nat) (seg : Seg) : List Char :=
  let newText := if i = 0 then replacedText else []
  let attrs := if newText.length > 0 then preserveAttr else seg.attrs
  "<w:t".toList ++ attrs ++ ['>'] ++ newText ++ "</w:t>".toList

/-- Source `replaceInParagraph`: collects the text segments; with none the
paragraph is returned as is; otherwise the concatenated text is replaced as
a whole, an unchanged result returns the paragraph as is, and otherwise the
loop from the last segment down to the first splices the rebuilt tag over
each segment's span. -/
def replaceInParagraph (paragraphXml : List Char) (r : CompiledRegex)
    (replacement : List Char) : List Char :=
  let segments := collectSegs paragraphXml
  if segments = [] then paragraphXml
  else
    let fullText := (segments.map Seg.text).flatten
    let replacedText := jsReplace fullText r replacement
    if fullText = replacedText then paragraphXml
    else
      (segments.enum.reverse).foldl
        (fun res iseg =>
          listSplice res iseg.2.start iseg.2.stop (newTagFor replacedText iseg.1 iseg.2))
        paragraphXml

/-- Chained segment spans: each span starts at or after the low bound,
runs forward, stays inside the bound, and the following spans come after
it. -/
def segsChainedB (bound : Nat) : Nat → List Seg → Bool
  | _, [] => true
  | lo, seg :: rest =>
    decide (lo ≤ seg.start) && (decide (seg.start ≤ seg.stop) &&
      (decide (seg.stop ≤ bound) && segsChainedB bound seg.stop rest))

/-- Forward rebuild of a paragraph over enumerated segment spans: the text
before each span is kept, each span is replaced by the produced tag, and
the trailing text is kept. -/
def rebuildSegs (p : List Char) (g : Nat → Seg → List Char) :
    Nat → List (Nat × Seg) → List Char
  | off, [] => p.drop off
  | off, (i, seg) :: rest =>
    sliceL p off seg.start ++ g i seg ++ rebuildSegs p g seg.stop rest

/-- Earliest decomposition of the input around the needle: `some (pre, post)`
with input equal to `pre ++ needle ++ post` and no earlier occurrence. -/
def splitOnFirst (needle : List Char) : List Char → Option (List Char × List Char)
  | [] => if needle = [] then some ([], []) else none
  | c :: rest =>
    if needle.isPrefixOf (c :: rest) then some ([], (c :: rest).drop needle.length)
    else
      match splitOnFirst needle rest with
      | some (pre, post) => some (c :: pre, post)
      | none => none

/-- Parses one paragraph element at the head of the input, per the source's
lazy pattern `<w:p[ >][\s\S]*?<\/w:p>` anchored at a position: the literal
opener followed by a space or closing angle bracket, then the shortest run
of any characters up to the literal close tag.  Returns the whole matched
element and the remaining input. -/
def parsePara (s : List Char) : Option (List Char × List Char) :=
  match s with
  | '<' :: 'w' :: ':' :: 'p' :: d :: s5 =>
    if d = ' ' ∨ d = '>' then
      match splitOnFirst "</w:p>".toList s5 with
      | some (mid, rest) =>
        some ('<' :: 'w' :: ':' :: 'p' :: d :: (mid ++ "</w:p>".toList), rest)
      | none => none
    else none
  | _ => none

/-- Whether the needle occurs as a contiguous subsequence of the hay. -/
def containsSeq (needle hay : List Char) : Bool := (splitOnFirst needle hay).isSome

/-- The global paragraph rewrite of `replaceInXml` with fuel: each
paragraph element match is rewritten by the callback, every other character
is copied verbatim.  The fuel is canonical at the input length. -/
def paraScanF (f : List Char → List Char) : Nat → List Char → List Char
  | 0, s => s
  | fuel + 1, s =>
    match parsePara s with
    | some (para, rest) => f para ++ paraScanF f fuel rest
    | none =>
      match s with
      | [] => []
      | c :: cs => c :: paraScanF f fuel cs

/-- The global paragraph rewrite over a whole payload. -/
def paraScan (f : List Char → List Char) (s : List Char) : List Char :=
  paraScanF f s.length s

/-- Source `replaceInXml`: the null regex returns the payload unchanged; a
compile error propagates; otherwise every paragraph element is processed
independently by `replaceInParagraph`. -/
def replaceInXml (xml pattern replacement : List Char) (o : Options) :
    Except Unit (List Char) :=
  match buildRegex pattern o with
  | Except.error e => Except.error e
  | Except.ok none => Except.ok xml
  | Except.ok (some r) =>
    Except.ok (paraScan (fun p => replaceInParagraph p r replacement) xml)

/-- A chunk of the payload as the paragraph scan sees it: a verbatim
character outside any paragraph element, or one whole paragraph element. -/
inductive Chunk where
  | raw (c : Char)
  | para (p : List Char)
deriving Repr, DecidableEq

/-- The chunk decomposition underlying the paragraph scan, same recursion
as `paraScanF` (out of fuel, the remainder is raw — unreachable at the
canonical fuel except on the empty remainder). -/
def splitParasF : Nat → List Char → List Chunk
  | 0, s => s.map Chunk.raw
  | fuel + 1, s =>
    match parsePara s with
    | some (para, rest) => Chunk.para para :: splitParasF fuel rest
    | none =>
      match s with
      | [] => []
      | c :: cs => Chunk.raw c :: splitParasF fuel cs

/-- The chunk decomposition of a payload. -/
def splitParas (s : List Char) : List Chunk := splitParasF s.length s

/-- Joins chunks back into a string, applying `f` to each paragraph chunk
and keeping raw characters verbatim. -/
def chunkJoin (f : List Char → List Char) (cs : List Chunk) : List Char :=
  (cs.map (fun ch =>
    match ch with
    | Chunk.raw c => [c]
    | Chunk.para p => f p)).flatten

/-! ### Application state machine, from `src/main.js` -/

/-- Loaded file kind. -/
inductive FType where
  | txt
  | docx
deriving Repr, DecidableEq

/-- The application state of `src/main.js`.  A JSZip object is modelled as
a reference (index) into `heap`, whose entries are the payloads
(`word/document.xml` contents) of the live zip objects; `zip.file(path, x)`
is an in-place update of the referenced entry. -/
structure AppState where
  fileType : Option FType
  originalText : List Char
  currentText : List Char
  originalZip : Option Nat
  currentZip : Option Nat
  undoText : Option (List Char)
  undoZip : Option Nat
  hasReplaced : Bool
  heap : List (List Char)
deriving Repr, DecidableEq

/-- The state before any file is loaded. -/
def initialState : AppState :=
  { fileType := none, originalText := [], currentText := [],
    originalZip := none, currentZip := none,
    undoText := none, undoZip := none, hasReplaced := false, heap := [] }

/-- Source `resetUndoState`. -/
def resetUndoState (st : AppState) : AppState :=
  { st with undoText := none, undoZip := none, hasReplaced := false }

/-- Source `handleFileSelected` for a text file: `loadTextFile` followed by
the undo reset. -/
def loadTxtFile (st : AppState) (content : List Char) : AppState :=
  resetUndoState { st with
    fileType := some FType.txt, originalText := content, currentText := content }

/-- Source `handleFileSelected` for a docx file: `loadDocxFile` loads the
archive twice (the original and the working copy are distinct zip objects
over the same payload), extracts the logical text, then the undo state is
reset. -/
def loadDocxFile (st : AppState) (payload : List Char) : AppState :=
  let origRef := st.heap.length
  let h1 := st.heap ++ [payload]
  let curRef := h1.length
  let h2 := h1 ++ [payload]
  let text := extractTextFromXml payload
  resetUndoState { st with
    fileType := some FType.docx,
    originalZip := some origRef, currentZip := some curRef,
    originalText := text, currentText := text, heap := h2 }

/-- A replacement pair (`find`, `replace`). -/
structure Pair where
  find : List Char
  replace : List Char
deriving Repr, DecidableEq

/-- Source `replaceInDocx`: reads the payload of the given zip object,
applies `replaceInXml`, and writes the result back into the same zip object
(`zip.file` overwrites the entry of the object it is called on), returning
that object.  The source's JSDoc promises "a modified copy"; the code
mutates its argument in place. -/
def replaceInDocx (heap : List (List Char)) (ref : Nat) (pattern replacement : List Char)
    (o : Options) : Except Unit (List (List Char)) :=
  match replaceInXml (heap.getD ref []) pattern replacement o with
  | Except.error e => Except.error e
  | Except.ok modifiedXml => Except.ok (heap.set ref modifiedXml)

/-- The loop of `applyTextReplacements`: each pair's output is the input of
the next; a thrown compile error aborts the loop before the state field is
assigned. -/
def applyTextLoop (o : Options) : List Char → List Pair → Except Unit (List Char)
  | text, [] => Except.ok text
  | text, pr :: rest =>
    match replaceAll text pr.find pr.replace o with
    | Except.error e => Except.error e
    | Except.ok t2 => applyTextLoop o t2 rest

/-- The loop of `applyDocxReplacements`: each pair rewrites the payload of
the same zip object in place.  On a thrown compile error the heap keeps the
mutations of the earlier pairs (`false` marks the throw); the assignments
after the loop are never reached. -/
def applyDocxLoop (o : Options) (ref : Nat) :
    List (List Char) → List Pair → List (List Char) × Bool
  | heap, [] => (heap, true)
  | heap, pr :: rest =>
    match replaceInDocx heap ref pr.find pr.replace o with
    | Except.error _ => (heap, false)
    | Except.ok h2 => applyDocxLoop o ref h2 rest

/-- The payload-level sequential composition the docx loop effects: each
pair's output payload is the exact input of the next pair. -/
def applyXmlSeq (o : Options) : List Char → List Pair → Except Unit (List Char)
  | xml, [] => Except.ok xml
  | xml, pr :: rest =>
    match replaceInXml xml pr.find pr.replace o with
    | Except.error e => Except.error e
    | Except.ok xml2 => applyXmlSeq o xml2 rest

/-- Outcome of `handleReplaceAll`: the no-pairs early return, the success
toast, or the caught-error toast. -/
inductive ReplaceOutcome where
  | noop
  | done
  | failed
deriving Repr, DecidableEq

/-- Source `handleReplaceAll`: with no pairs it returns at once; otherwise
the undo snapshot is saved first (`undoText` gets `currentText`; `undoZip`
gets the same `currentZip` object reference), the pairs are applied, and on
success `hasReplaced` is set; a thrown error is caught and reported,
leaving the state as the loop left it. -/
def handleReplaceAll (st : AppState) (pairs : List Pair) (o : Options) :
    AppState × ReplaceOutcome :=
  if pairs = [] then (st, ReplaceOutcome.noop)
  else
    let st1 := { st with undoText := some st.currentText, undoZip := st.currentZip }
    match st1.fileType with
    | some FType.txt =>
      match applyTextLoop o st1.currentText pairs with
      | Except.ok t2 =>
        ({ st1 with currentText := t2, hasReplaced := true }, ReplaceOutcome.done)
      | Except.error _ => (st1, ReplaceOutcome.failed)
    | some FType.docx =>
      match st1.currentZip with
      | some ref =>
        match applyDocxLoop o ref st1.heap pairs with
        | (h2, true) =>
          ({ st1 with
              heap := h2
              currentText := extractTextFromXml (h2.getD ref [])
              hasReplaced := true }, ReplaceOutcome.done)
        | (h2, false) => ({ st1 with heap := h2 }, ReplaceOutcome.failed)
      | none => (st1, ReplaceOutcome.failed)
    | none => (st1, ReplaceOutcome.failed)

/-- Source `handleUndo`: without a prior replacement it returns at once;
otherwise `currentText` falls back through the OR of `undoText` and
`originalText` (an empty saved text is falsy and falls through to the
original), `currentZip` through `undoZip` or `originalZip`, and the undo
state is reset. -/
def handleUndo (st : AppState) : AppState :=
  if st.hasReplaced = false then st
  else
    let newText :=
      match st.undoText with
      | some t => if t = [] then st.originalText else t
      | none => st.originalText
    let newZip :=
      match st.undoZip with
      | some z => some z
      | none => st.originalZip
    resetUndoState { st with currentText := newText, currentZip := newZip }

/-- The logical text extracted from the payload of a state's working zip
object. -/
def currentZipText (st : AppState) : List Char :=
  extractTextFromXml (st.heap.getD (st.currentZip.getD 0) [])

/-- Test fixture: a freshly loaded structured document whose logical text
is `hello a`. -/
def demoDocxLoaded : AppState :=
  loadDocxFile initialState "<w:p ><w:r><w:t>hello a</w:t></w:r></w:p>".toList

/-- Test fixture: the loaded document after a successful replace-all of
`a` by `b`. -/
def demoDocxReplaced : AppState :=
  (handleReplaceAll demoDocxLoaded [⟨"a".toList, "b".toList⟩] {}).1

/-- Test fixture: a freshly loaded structured document whose logical text
is `a`. -/
def demoDocxLoaded2 : AppState :=
  loadDocxFile initialState "<w:p ><w:t>a</w:t></w:p>".toList

/-- The parsed form of a literal (escaped) pattern: one single-character
piece per pattern character. -/
def litPieces (p : List Char) : RPattern :=
  p.map (fun c => RPiece.once (RAtom.lit c))

/-- The pattern occurs character-by-character at position `i` of the text,
under the case rule. -/
def litAt (ci : Bool) (text : List Char) : List Char → Nat → Bool
  | [], _ => true
  | c :: rest, i =>
    match text[i]? with
    | some d => charEq ci d c && litAt ci text rest (i + 1)
    | none => false

/-- Modelled from the spec (testable property of §8): counts the
non-overlapping left-to-right occurrences of a literal pattern, scanning
position by position and resuming after each occurrence at its end.  The
fuel is canonical at one unit per scan position. -/
def countOccF (ci : Bool) (text pat : List Char) : Nat → Nat → Nat
  | 0, _ => 0
  | fuel + 1, i =>
    if litAt ci text pat i then countOccF ci text pat fuel (i + pat.length) + 1
    else countOccF ci text pat fuel (i + 1)

/-- Modelled from the spec: the number of non-overlapping left-to-right
occurrences of `pat` in `text`, case rule per `ci`. -/
def countOcc (ci : Bool) (pat text : List Char) : Nat :=
  countOccF ci text pat (text.length + 1) 0

/-- JS `String.trim`. -/
def trimL (s : List Char) : List Char :=
  ((s.dropWhile Char.isWhitespace).reverse.dropWhile Char.isWhitespace).reverse

/-- Source `renderTextPreview` (`src/components/Preview.js`): empty text
renders the empty state with zero matches; a blank pattern renders the text
unhighlighted with zero matches; otherwise `findMatches` runs with no
catch around it, so a pattern compile error propagates out of the render
call. -/
def renderTextPreview (text pattern : List Char) (o : Options) : Except Unit Nat :=
  if text = [] then Except.ok 0
  else if pattern = [] ∨ trimL pattern = [] then Except.ok 0
  else
    match findMatches text pattern o with
    | Except.error e => Except.error e
    | Except.ok res => Except.ok res.count

end Replacit

namespace Replacit

example : findMatches "bb".toList "a*".toList { isRegex := true } =
    Except.ok ⟨3, [⟨0, 0, []⟩, ⟨1, 1, []⟩, ⟨2, 2, []⟩]⟩ := by decide

example : replaceAll "a".toList "a".toList "b".toList {} = Except.ok "b".toList := by decide

example : findMatches "concatenate cat".toList "cat".toList { isWholeWord := true } =
    Except.ok ⟨1, [⟨12, 15, "cat".toList⟩]⟩ := by decide

example : buildRegex "(".toList { isRegex := true } = Except.error () := by decide

example : findMatches "aab".toList "a*".toList { isRegex := true } =
    Except.ok ⟨3, [⟨0, 2, "aa".toList⟩, ⟨2, 2, []⟩, ⟨3, 3, []⟩]⟩ := by decide

example : replaceAll "xAbxab".toList "ab".toList "y".toList {} =
    Except.ok "xyxy".toList := by decide

example : replaceAll "xAbxab".toList "ab".toList "y".toList { isCaseSensitive := true } =
    Except.ok "xAbxy".toList := by decide

example : extractTextFromXml "<w:p ><w:r><w:t>hello a</w:t></w:r></w:p>".toList =
    "hello a".toList := by decide

example : replaceInXml "<w:p ><w:r><w:t>hello a</w:t></w:r></w:p>".toList
    "a".toList "b".toList {} =
    Except.ok "<w:p ><w:r><w:t xml:space=\"preserve\">hello b</w:t></w:r></w:p>".toList := by
  decide

example : replaceInXml "<w:p><w:r><w:t>fo</w:t><w:t>o bar</w:t></w:r></w:p>".toList
    "foo".toList "baz".toList {} =
    Except.ok "<w:p><w:r><w:t xml:space=\"preserve\">baz bar</w:t><w:t></w:t></w:r></w:p>".toList := by
  decide

example :
    extractTextFromXml
      ((handleReplaceAll (loadDocxFile initialState
          "<w:p ><w:r><w:t>hello a</w:t></w:r></w:p>".toList)
        [⟨"a".toList, "b".toList⟩] {}).1.heap.getD 1 []) = "hello b".toList := by decide

example :
    (handleUndo (handleReplaceAll (loadDocxFile initialState
        "<w:p ><w:r><w:t>hello a</w:t></w:r></w:p>".toList)
      [⟨"a".toList, "b".toList⟩] {}).1).currentText = "hello a".toList := by decide

/-! ### Helper lemmas -/

/-- Each step of the exec loop emits one span, so the span list is no
longer than the fuel. -/
theorem findLoopF_length_le (m : List Char → Nat → Option Nat) (text : List Char) :
    ∀ fuel i, (findLoopF m text fuel i).length ≤ fuel := by
  intro fuel
  induction fuel with
  | zero => intro i; simp [findLoopF]
  | succ n ih =>
    intro i
    simp only [findLoopF]
    split
    · simp
    · simpa using Nat.succ_le_succ (ih _)

/-- Unfolding the escape over a leading character. -/
theorem escape_cons (c : Char) (p : List Char) :
    escapeRegexChars (c :: p) =
      (if isSpecialChar c then ['\\', c] else [c]) ++ escapeRegexChars p := by
  simp [escapeRegexChars]

/-- The escape of a pattern never starts with a bare operator character. -/
theorem escape_head_ok (p : List Char) :
    escapeRegexChars p = [] ∨
      ∃ c rest, escapeRegexChars p = c :: rest ∧ (c = '\\' ∨ isSpecialChar c = false) := by
  cases p with
  | nil => exact Or.inl rfl
  | cons c rest =>
    right
    cases hc : isSpecialChar c with
    | true =>
      exact ⟨'\\', c :: escapeRegexChars rest, by simp [escape_cons, hc], Or.inl rfl⟩
    | false => exact ⟨c, escapeRegexChars rest, by simp [escape_cons, hc], Or.inr hc⟩

/-- The escape of a pattern never starts with a star. -/
theorem escape_head_ne_star (p : List Char) :
    (escapeRegexChars p).head? ≠ some '*' := by
  rcases escape_head_ok p with h | ⟨c, rest, h, hc⟩
  · rw [h]; simp
  · rw [h]
    simp only [List.head?_cons, ne_eq, Option.some.injEq]
    rcases hc with h2 | h2
    · rw [h2]; decide
    · intro he; rw [he] at h2; exact absurd h2 (by decide)

/-- Parser step over an escaped atom not followed by a quantifier. -/
theorem parseRegex_bs (c : Char) (rest : List Char) (h1 : escAllowed c = true)
    (h2 : rest.head? ≠ some '*') :
    parseRegex ('\\' :: c :: rest) =
      (parseRegex rest).map (fun p => RPiece.once (escAtom c) :: p) := by
  cases rest with
  | nil => rw [parseRegex.eq_def]; simp [h1]
  | cons c0 r0 =>
    have hc0 : c0 ≠ '*' := by simpa using h2
    rw [parseRegex.eq_def]; simp [h1, hc0]

/-- Parser step over a plain character not followed by a quantifier. -/
theorem parseRegex_plain (c : Char) (rest : List Char) (h1 : isSpecialChar c = false)
    (hb : c ≠ '\\') (h2 : rest.head? ≠ some '*') :
    parseRegex (c :: rest) =
      (parseRegex rest).map (fun p => RPiece.once (RAtom.lit c) :: p) := by
  cases rest with
  | nil => rw [parseRegex.eq_def]; simp [h1, hb]
  | cons c0 r0 =>
    have hc0 : c0 ≠ '*' := by simpa using h2
    rw [parseRegex.eq_def]; simp [h1, hb, hc0]

/-- The escaped form of any literal pattern parses to its literal pieces:
escaping makes the pattern stand for itself. -/
theorem parse_escape (p : List Char) :
    parseRegex (escapeRegexChars p) = Except.ok (litPieces p) := by
  induction p with
  | nil => rfl
  | cons c rest ih =>
    rw [escape_cons]
    cases hc : isSpecialChar c with
    | true =>
      have hb : escAllowed c = true := by simp [escAllowed, hc]
      have hcb : c ≠ 'b' := by intro h; rw [h] at hc; exact absurd hc (by decide)
      have ha : escAtom c = RAtom.lit c := by simp [escAtom, hcb]
      simp only [hc, if_true, List.cons_append, List.nil_append]
      rw [parseRegex_bs c _ hb (escape_head_ne_star rest), ha, ih]
      rfl
    | false =>
      have hb : c ≠ '\\' := by intro h; rw [h] at hc; exact absurd hc (by decide)
      simp only [hc, if_false, Bool.false_eq_true, List.cons_append, List.nil_append]
      rw [parseRegex_plain c _ hc hb (escape_head_ne_star rest), ih]
      rfl

/-- The matcher rejects an empty candidate list. -/
theorem pmF_no_candidates (ci : Bool) (text : List Char) (fuel : Nat) (p : RPattern) :
    pmF ci text fuel p [] = none := by
  cases fuel with
  | zero => rfl
  | succ f =>
    cases p with
    | nil => rfl
    | cons piece rest => cases piece <;> rfl

/-- With sufficient fuel, the matcher on the literal pieces of a pattern is
exactly the character-wise prefix test, consuming the pattern's length. -/
theorem pmF_lit (ci : Bool) (text : List Char) :
    ∀ (pat : List Char) (fuel j : Nat), pat.length < fuel →
      pmF ci text fuel (litPieces pat) [j] =
        if litAt ci text pat j then some (j + pat.length) else none := by
  intro pat
  induction pat with
  | nil =>
    intro fuel j h
    cases fuel with
    | zero => omega
    | succ f => simp [pmF, litPieces, litAt]
  | cons c rest ih =>
    intro fuel j h
    cases fuel with
    | zero => omega
    | succ f =>
      simp only [litPieces, List.map_cons] at ih ⊢
      rw [pmF]
      simp only [atomMatch]
      cases hget : text[j]? with
      | none => simp [litAt, hget, pmF_no_candidates]
      | some d =>
        cases hce : charEq ci d c with
        | false => simp [litAt, hget, hce, pmF_no_candidates]
        | true =>
          have h2 : rest.length < f := by
            simp only [List.length_cons] at h; omega
          simp only [hget, hce, if_true]
          rw [ih f (j + 1) h2]
          cases hla : litAt ci text rest (j + 1) with
          | true =>
            simp only [hla, if_true, litAt, hget, hce, Bool.and_self, List.length_cons]
            congr 1
            omega
          | false => simp [litAt, hget, hce, hla, pmF_no_candidates]

/-- The matcher on a compiled literal pattern is the prefix test. -/
theorem piecesMatch_lit (ci : Bool) (text pat : List Char) (i : Nat) :
    piecesMatch ci text (litPieces pat) i =
      if litAt ci text pat i then some (i + pat.length) else none := by
  apply pmF_lit
  have h1 : (pat.length + 1) * 1 ≤ (pat.length + 1) * (text.length + 2) :=
    Nat.mul_le_mul_left _ (by omega)
  simp only [Nat.mul_one] at h1
  simp only [piecesFuel, litPieces, List.length_map]
  omega

/-- Compiling a non-empty pattern in literal mode (whole-word off) yields
its literal pieces under the case flag. -/
theorem buildRegex_lit (cs : Bool) (p : List Char) (hp : p ≠ []) :
    buildRegex p { isCaseSensitive := cs, isWholeWord := false, isRegex := false } =
      Except.ok (some ⟨litPieces p, !cs⟩) := by
  simp only [buildRegex, if_neg hp]
  simp [parse_escape p]

/-- A successful probe of `execFromF` is at or after the start, inside the
text, is a real match, and is the first such position. -/
theorem execFromF_some (m : List Char → Nat → Option Nat) (text : List Char) :
    ∀ fuel i s e, execFromF m text fuel i = some (s, e) →
      i ≤ s ∧ s ≤ text.length ∧ m text s = some e ∧
        ∀ k, i ≤ k → k < s → m text k = none := by
  intro fuel
  induction fuel with
  | zero => intro i s e h; cases h
  | succ f ih =>
    intro i s e h
    rw [execFromF] at h
    by_cases hi : i ≤ text.length
    · rw [if_pos hi] at h
      cases hm : m text i with
      | some e2 =>
        rw [hm] at h
        cases h
        exact ⟨Nat.le_refl _, hi, hm, fun k hk1 hk2 => by omega⟩
      | none =>
        rw [hm] at h
        obtain ⟨ha, hb, hc, hd⟩ := ih (i + 1) s e h
        refine ⟨by omega, hb, hc, fun k hk1 hk2 => ?_⟩
        rcases Nat.eq_or_lt_of_le hk1 with rfl | hlt
        · exact hm
        · exact hd k hlt hk2
    · rw [if_neg hi] at h; cases h

/-- A failed probe of `execFromF` (with adequate fuel) means no position in
range matches. -/
theorem execFromF_none (m : List Char → Nat → Option Nat) (text : List Char) :
    ∀ fuel i, text.length + 1 - i ≤ fuel → execFromF m text fuel i = none →
      ∀ k, i ≤ k → k ≤ text.length → m text k = none := by
  intro fuel
  induction fuel with
  | zero => intro i h1 _ k hk1 hk2; omega
  | succ f ih =>
    intro i h1 h k hk1 hk2
    rw [execFromF] at h
    by_cases hi : i ≤ text.length
    · rw [if_pos hi] at h
      cases hm : m text i with
      | some e => rw [hm] at h; cases h
      | none =>
        rw [hm] at h
        rcases Nat.eq_or_lt_of_le hk1 with rfl | hlt
        · exact hm
        · exact ih (i + 1) (by omega) h k hlt hk2
    · omega

/-- `execFrom` characterization: the success case. -/
theorem execFrom_spec_some (m : List Char → Nat → Option Nat) (text : List Char)
    (i s e : Nat) (h : execFrom m text i = some (s, e)) :
    i ≤ s ∧ s ≤ text.length ∧ m text s = some e ∧
      ∀ k, i ≤ k → k < s → m text k = none :=
  execFromF_some m text _ i s e h

/-- `execFrom` characterization: the failure case. -/
theorem execFrom_spec_none (m : List Char → Nat → Option Nat) (text : List Char)
    (i : Nat) (h : execFrom m text i = none) :
    ∀ k, i ≤ k → k ≤ text.length → m text k = none :=
  execFromF_none m text _ i (Nat.le_refl _) h

/-- Past the end of the text no probe succeeds. -/
theorem execFrom_none_of_gt (m : List Char → Nat → Option Nat) (text : List Char)
    (i : Nat) (h : text.length < i) : execFrom m text i = none := by
  unfold execFrom
  have h0 : text.length + 1 - i = 0 := by omega
  rw [h0]
  rfl

/-- The exec loop is independent of the fuel once the fuel covers the
remaining scan positions. -/
theorem findLoopF_adeq (m : List Char → Nat → Option Nat) (text : List Char) :
    ∀ fuel1 fuel2 i, text.length + 1 - i ≤ fuel1 → text.length + 1 - i ≤ fuel2 →
      findLoopF m text fuel1 i = findLoopF m text fuel2 i := by
  intro fuel1
  induction fuel1 with
  | zero =>
    intro fuel2 i h1 h2
    have hi : text.length < i := by omega
    cases fuel2 with
    | zero => rfl
    | succ g => rw [findLoopF, findLoopF, execFrom_none_of_gt m text i hi]
  | succ f ih =>
    intro fuel2 i h1 h2
    cases fuel2 with
    | zero =>
      have hi : text.length < i := by omega
      rw [findLoopF, findLoopF, execFrom_none_of_gt m text i hi]
    | succ g =>
      rw [findLoopF, findLoopF]
      cases h : execFrom m text i with
      | none => rfl
      | some se =>
        obtain ⟨s, e⟩ := se
        obtain ⟨ha, hb, _, _⟩ := execFrom_spec_some m text i s e h
        dsimp only
        congr 1
        have hnext : i + 1 ≤ if e ≤ s then s + 1 else e := by split <;> omega
        exact ih g (if e ≤ s then s + 1 else e) (by omega) (by omega)

/-! ### Occurrence counting (claim C8) -/

/-- A non-empty pattern cannot occur at or past the text's end. -/
theorem litAt_false_of_ge (ci : Bool) (text pat : List Char) (hp : pat ≠ [])
    (i : Nat) (h : text.length ≤ i) : litAt ci text pat i = false := by
  cases pat with
  | nil => exact absurd rfl hp
  | cons c rest =>
    have hnone : text[i]? = none := List.getElem?_eq_none h
    simp [litAt, hnone]

/-- Where a non-empty pattern occurs, it ends inside the text. -/
theorem litAt_end_le (ci : Bool) (text : List Char) :
    ∀ pat i, pat ≠ [] → litAt ci text pat i = true → i + pat.length ≤ text.length := by
  intro pat
  induction pat with
  | nil => intro i h _; exact absurd rfl h
  | cons c rest ih =>
    intro i _ h
    simp only [litAt] at h
    cases hget : text[i]? with
    | none => rw [hget] at h; cases h
    | some d =>
      rw [hget] at h
      simp only [Bool.and_eq_true] at h
      have hi : i < text.length := by
        by_contra hc
        rw [List.getElem?_eq_none (by omega)] at hget
        cases hget
      cases rest with
      | nil => simp only [List.length_cons, List.length_nil]; omega
      | cons c2 r2 =>
        have := ih (i + 1) (by simp) h.2
        simp only [List.length_cons] at this ⊢
        omega

/-- A count over positions where the pattern never occurs is zero. -/
theorem countOccF_eq_zero (ci : Bool) (text pat : List Char) :
    ∀ fuel i, (∀ k, i ≤ k → litAt ci text pat k = false) →
      countOccF ci text pat fuel i = 0 := by
  intro fuel
  induction fuel with
  | zero => intro i _; rfl
  | succ f ih =>
    intro i hno
    rw [countOccF, if_neg (by rw [hno i (Nat.le_refl _)]; simp)]
    exact ih (i + 1) (fun k hk => hno k (by omega))

/-- The occurrence count is independent of the fuel once the fuel covers
the remaining scan positions (non-empty pattern). -/
theorem countOccF_adeq (ci : Bool) (text pat : List Char) (hp : pat ≠ []) :
    ∀ fuel1 fuel2 i, text.length + 1 - i ≤ fuel1 → text.length + 1 - i ≤ fuel2 →
      countOccF ci text pat fuel1 i = countOccF ci text pat fuel2 i := by
  intro fuel1
  induction fuel1 with
  | zero =>
    intro fuel2 i h1 h2
    have hi : text.length < i := by omega
    rw [countOccF_eq_zero ci text pat 0 i
        (fun k hk => litAt_false_of_ge ci text pat hp k (by omega)),
      countOccF_eq_zero ci text pat fuel2 i
        (fun k hk => litAt_false_of_ge ci text pat hp k (by omega))]
  | succ f ih =>
    intro fuel2 i h1 h2
    cases fuel2 with
    | zero =>
      have hi : text.length < i := by omega
      rw [countOccF_eq_zero ci text pat (f + 1) i
          (fun k hk => litAt_false_of_ge ci text pat hp k (by omega)),
        countOccF_eq_zero ci text pat 0 i
          (fun k hk => litAt_false_of_ge ci text pat hp k (by omega))]
    | succ g =>
      rw [countOccF, countOccF]
      cases hla : litAt ci text pat i with
      | false =>
        rw [if_neg (by simp), if_neg (by simp)]
        exact ih g (i + 1) (by omega) (by omega)
      | true =>
        have hend := litAt_end_le ci text pat i hp hla
        have hpl : 1 ≤ pat.length := by
          cases pat with
          | nil => exact absurd rfl hp
          | cons _ _ => simp
        rw [if_pos rfl, if_pos rfl]
        rw [ih g (i + pat.length) (by omega) (by omega)]

/-- Skipping match-free positions does not change the canonical count. -/
theorem countOccF_skip_to (ci : Bool) (text pat : List Char) (hp : pat ≠ []) :
    ∀ d i s, s - i = d → i ≤ s → s ≤ text.length + 1 →
      (∀ k, i ≤ k → k < s → litAt ci text pat k = false) →
      countOccF ci text pat (text.length + 1 - i) i =
        countOccF ci text pat (text.length + 1 - s) s := by
  intro d
  induction d with
  | zero =>
    intro i s h0 h1 _ _
    have : i = s := by omega
    rw [this]
  | succ n ih =>
    intro i s h0 h1 h2 hno
    have hi : i < s := by omega
    have hfuel : text.length + 1 - i = (text.length + 1 - (i + 1)) + 1 := by omega
    rw [hfuel, countOccF, if_neg (by rw [hno i (Nat.le_refl _) hi]; simp)]
    exact ih (i + 1) s (by omega) (by omega) h2 (fun k hk1 hk2 => hno k (by omega) hk2)


/-- A probe of the literal matcher is exactly the prefix test. -/
theorem regexMatch_lit (ci : Bool) (text pat : List Char) (k : Nat) :
    regexMatch ⟨litPieces pat, ci⟩ text k =
      if litAt ci text pat k then some (k + pat.length) else none := by
  rw [regexMatch]
  exact piecesMatch_lit ci text pat k

/-- The scan loop over the literal matcher finds exactly the
non-overlapping left-to-right occurrences: its span count is the canonical
occurrence count from any start position. -/
theorem findLoop_lit_count (ci : Bool) (text pat : List Char) (hp : pat ≠ []) :
    ∀ n i, text.length + 1 - i = n →
      (findLoop (regexMatch ⟨litPieces pat, ci⟩) text i).length =
        countOccF ci text pat (text.length + 1 - i) i := by
  have hpl : 1 ≤ pat.length := by
    cases pat with
    | nil => exact absurd rfl hp
    | cons _ _ => simp
  intro n
  induction n using Nat.strong_induction_on with
  | _ n ih =>
    intro i hn
    rw [findLoop]
    cases hnl : text.length + 1 - i with
    | zero => rfl
    | succ nf =>
      rw [findLoopF]
      cases h : execFrom (regexMatch ⟨litPieces pat, ci⟩) text i with
      | none =>
        have hno : ∀ k, i ≤ k → litAt ci text pat k = false := by
          intro k hk
          by_cases hkl : k ≤ text.length
          · have h2 := execFrom_spec_none _ text i h k hk hkl
            rw [regexMatch_lit] at h2
            cases hla : litAt ci text pat k with
            | true => rw [hla] at h2; simp at h2
            | false => rfl
          · exact litAt_false_of_ge ci text pat hp k (by omega)
        rw [countOccF_eq_zero ci text pat _ i hno]
        rfl
      | some se =>
        obtain ⟨s, e⟩ := se
        obtain ⟨his, hsl, hm, hmin⟩ := execFrom_spec_some _ text i s e h
        rw [regexMatch_lit] at hm
        have hla : litAt ci text pat s = true := by
          cases hla2 : litAt ci text pat s with
          | true => rfl
          | false => rw [hla2] at hm; simp at hm
        have he : e = s + pat.length := by
          rw [hla] at hm; simp at hm; omega
        have hif : (if e ≤ s then s + 1 else e) = e := if_neg (by omega)
        dsimp only
        rw [hif]
        have hadeq : findLoopF (regexMatch ⟨litPieces pat, ci⟩) text nf e =
            findLoopF (regexMatch ⟨litPieces pat, ci⟩) text (text.length + 1 - e) e :=
          findLoopF_adeq _ text nf _ e (by omega) (by omega)
        have hih := ih (text.length + 1 - e) (by omega) e rfl
        rw [findLoop] at hih
        simp only [List.length_cons]
        rw [hadeq, hih]
        have hnolo : ∀ k, i ≤ k → k < s → litAt ci text pat k = false := by
          intro k hk1 hk2
          have h2 := hmin k hk1 hk2
          rw [regexMatch_lit] at h2
          cases hla2 : litAt ci text pat k with
          | true => rw [hla2] at h2; simp at h2
          | false => rfl
        rw [← hnl]
        rw [countOccF_skip_to ci text pat hp (s - i) i s rfl his (by omega) hnolo]
        have hsf : text.length + 1 - s = (text.length - s) + 1 := by omega
        rw [hsf, countOccF, if_pos (by rw [hla])]
        rw [countOccF_adeq ci text pat hp (text.length - s) (text.length + 1 - e)
          (s + pat.length) (by omega) (by omega), ← he]

/-! ### Heap and loop lemmas (claim C9) -/

/-- Writing back the entry a reference already holds is a no-op. -/
theorem list_set_self : ∀ (l : List (List Char)) (i : Nat), i < l.length →
    l.set i (l.getD i []) = l := by
  intro l
  induction l with
  | nil => intro i h; simp at h
  | cons x xs ih =>
    intro i h
    cases i with
    | zero => simp
    | succ n =>
      simp only [List.getD_cons_succ, List.set_cons_succ, List.cons.injEq, true_and]
      exact ih n (by simpa using h)

/-- Reading back a written entry. -/
theorem list_getD_set (l : List (List Char)) : ∀ (i : Nat) (x : List Char),
    i < l.length → (l.set i x).getD i [] = x := by
  induction l with
  | nil => intro i x h; simp at h
  | cons y ys ih =>
    intro i x h
    cases i with
    | zero => simp
    | succ n =>
      simp only [List.set_cons_succ, List.getD_cons_succ]
      exact ih n x (by simpa using h)

/-- Reading back a written entry, optional form. -/
theorem list_getElem_set (l : List (List Char)) : ∀ (i : Nat) (x : List Char),
    i < l.length → (l.set i x)[i]? = some x := by
  induction l with
  | nil => intro i x h; simp at h
  | cons y ys ih =>
    intro i x h
    cases i with
    | zero => simp
    | succ n =>
      simp only [List.set_cons_succ, List.getElem?_cons_succ]
      exact ih n x (by simpa using h)

/-- On a successful run, the docx loop writes the sequential payload fold
into the zip entry it mutates in place. -/
theorem applyDocxLoop_ok (o : Options) (ref : Nat) :
    ∀ (pairs : List Pair) (heap : List (List Char)) (xml2 : List Char),
      ref < heap.length →
      applyXmlSeq o (heap.getD ref []) pairs = Except.ok xml2 →
      applyDocxLoop o ref heap pairs = (heap.set ref xml2, true) := by
  intro pairs
  induction pairs with
  | nil =>
    intro heap xml2 href h
    have h2 : heap.getD ref [] = xml2 := by simpa [applyXmlSeq] using h
    rw [applyDocxLoop, ← h2, list_set_self heap ref href]
  | cons pr rest ih =>
    intro heap xml2 href h
    cases hx : replaceInXml (heap.getD ref []) pr.find pr.replace o with
    | error e =>
      simp only [applyXmlSeq] at h
      rw [hx] at h
      simp at h
    | ok m =>
      simp only [applyXmlSeq] at h
      rw [hx] at h
      simp only at h
      simp only [applyDocxLoop, replaceInDocx, hx]
      have h2 : (heap.set ref m).getD ref [] = m := list_getD_set heap ref m href
      have h3 := ih (heap.set ref m) xml2 (by simpa using href) (by rw [h2]; exact h)
      rw [h3, List.set_set]

/-- A successful text replace-all commits the sequential fold of
`replaceAll` over the pairs. -/
theorem handleReplaceAll_txt_ok (st : AppState) (pairs : List Pair) (o : Options)
    (t2 : List Char) (hft : st.fileType = some FType.txt) (hp : pairs ≠ [])
    (h : applyTextLoop o st.currentText pairs = Except.ok t2) :
    handleReplaceAll st pairs o =
      ({ st with
          undoText := some st.currentText
          undoZip := st.currentZip
          currentText := t2
          hasReplaced := true }, ReplaceOutcome.done) := by
  simp [handleReplaceAll, hp, hft, h]

/-! ### Paragraph decomposition lemmas (claim C10) -/

/-- Decomposition produced by a successful needle split. -/
theorem splitOnFirst_eq (needle : List Char) :
    ∀ hay pre post, splitOnFirst needle hay = some (pre, post) →
      hay = pre ++ needle ++ post := by
  intro hay
  induction hay with
  | nil =>
    intro pre post h
    simp only [splitOnFirst] at h
    by_cases hn : needle = []
    · rw [if_pos hn] at h
      cases h
      simp [hn]
    · rw [if_neg hn] at h
      cases h
  | cons c rest ih =>
    intro pre post h
    simp only [splitOnFirst] at h
    by_cases hpre : needle.isPrefixOf (c :: rest) = true
    · rw [if_pos hpre] at h
      cases h
      obtain ⟨t, ht⟩ := List.isPrefixOf_iff_prefix.mp hpre
      rw [← ht, List.drop_left]
      simp
    · rw [if_neg hpre] at h
      cases hsp : splitOnFirst needle rest with
      | none => rw [hsp] at h; cases h
      | some pq =>
        obtain ⟨p2, q2⟩ := pq
        rw [hsp] at h
        cases h
        have h2 := ih p2 post hsp
        simp [h2]

/-- A successful paragraph parse splits off one whole paragraph element:
the element plus the remainder rebuild the input, and the element is the
literal opener, a space or closing bracket, a middle, and the literal
close tag. -/
theorem parsePara_eq (s para rest : List Char) (h : parsePara s = some (para, rest)) :
    para ++ rest = s ∧
      ∃ d mid, (d = ' ' ∨ d = '>') ∧
        para = "<w:p".toList ++ (d :: (mid ++ "</w:p>".toList)) := by
  rw [parsePara.eq_def] at h
  split at h
  next c1 d s5 =>
    split at h
    next hd =>
      cases hsp : splitOnFirst "</w:p>".toList s5 with
      | none => rw [hsp] at h; cases h
      | some pq =>
        obtain ⟨mid, rest2⟩ := pq
        rw [hsp] at h
        cases h
        have h2 := splitOnFirst_eq "</w:p>".toList s5 mid rest hsp
        constructor
        · simp [h2]
        · exact ⟨d, mid, hd, by simp⟩
    next hd => cases h
  next hs => cases h

/-- Joining raw chunks rebuilds the string. -/
theorem chunkJoin_map_raw (f : List Char → List Char) :
    ∀ s : List Char, chunkJoin f (s.map Chunk.raw) = s := by
  intro s
  induction s with
  | nil => rfl
  | cons c cs ih =>
    simp only [chunkJoin, List.map_cons, List.flatten_cons] at ih ⊢
    rw [ih]
    rfl

/-- The paragraph scan and the chunk decomposition agree at every fuel. -/
theorem paraScanF_eq_chunks (f : List Char → List Char) :
    ∀ fuel s, paraScanF f fuel s = chunkJoin f (splitParasF fuel s) := by
  intro fuel
  induction fuel with
  | zero =>
    intro s
    exact (chunkJoin_map_raw f s).symm
  | succ n ih =>
    intro s
    cases s with
    | nil => rfl
    | cons c cs =>
      rw [paraScanF, splitParasF]
      cases hp : parsePara (c :: cs) with
      | some pr =>
        obtain ⟨para, rest⟩ := pr
        simp only [chunkJoin, List.map_cons, List.flatten_cons]
        rw [ih rest]
        rfl
      | none =>
        simp only [chunkJoin, List.map_cons, List.flatten_cons]
        rw [ih cs]
        rfl

/-- Joining the chunks verbatim rebuilds the payload: every character
outside a matched paragraph element is kept as is. -/
theorem splitParasF_join (fuel : Nat) :
    ∀ s, chunkJoin (fun p => p) (splitParasF fuel s) = s := by
  induction fuel with
  | zero =>
    intro s
    exact chunkJoin_map_raw (fun p => p) s
  | succ n ih =>
    intro s
    simp only [chunkJoin] at ih
    cases s with
    | nil => rfl
    | cons c cs =>
      rw [splitParasF]
      cases hp : parsePara (c :: cs) with
      | some pr =>
        obtain ⟨para, rest⟩ := pr
        obtain ⟨hsplit, _⟩ := parsePara_eq (c :: cs) para rest hp
        simp only [chunkJoin, List.map_cons, List.flatten_cons]
        rw [ih rest]
        exact hsplit
      | none =>
        simp only [chunkJoin, List.map_cons, List.flatten_cons]
        rw [ih cs]
        rfl

/-- Every paragraph chunk is one whole paragraph element. -/
theorem splitParasF_para_shape (fuel : Nat) :
    ∀ s p, Chunk.para p ∈ splitParasF fuel s →
      ∃ d mid, (d = ' ' ∨ d = '>') ∧
        p = "<w:p".toList ++ (d :: (mid ++ "</w:p>".toList)) := by
  induction fuel with
  | zero =>
    intro s p hmem
    rw [splitParasF] at hmem
    simp only [List.mem_map] at hmem
    obtain ⟨c, _, hc⟩ := hmem
    cases hc
  | succ n ih =>
    intro s p hmem
    cases s with
    | nil => simp [splitParasF, parsePara] at hmem
    | cons c cs =>
      rw [splitParasF] at hmem
      cases hp : parsePara (c :: cs) with
      | some pr =>
        obtain ⟨para, rest⟩ := pr
        rw [hp] at hmem
        simp only [List.mem_cons] at hmem
        rcases hmem with heq | hmem
        · obtain ⟨_, d, mid, hd, hshape⟩ := parsePara_eq (c :: cs) para rest hp
          cases heq
          exact ⟨d, mid, hd, hshape⟩
        · exact ih rest p hmem
      | none =>
        rw [hp] at hmem
        simp only [List.mem_cons] at hmem
        rcases hmem with heq | hmem
        · cases heq
        · exact ih cs p hmem

/-! ### Segment splice lemmas (claims C4, C5) -/

/-- Gluing adjacent slices. -/
theorem sliceL_glue (p : List Char) (a b c : Nat) (h1 : a ≤ b) (h2 : b ≤ c) :
    sliceL p a c = sliceL p a b ++ sliceL p b c := by
  simp only [sliceL, List.drop_take]
  have h3 : c - a = (b - a) + (c - b) := by omega
  rw [h3, List.take_add]
  congr 2
  rw [List.drop_drop]
  congr 1
  omega

/-- A tail drop splits over an intermediate position. -/
theorem drop_eq_slice_append (p : List Char) (off k : Nat) (h1 : off ≤ k) :
    p.drop off = sliceL p off k ++ p.drop k := by
  simp only [sliceL, List.drop_take]
  have h2 : p.drop k = (p.drop off).drop (k - off) := by
    rw [List.drop_drop]
    congr 1
    omega
  rw [h2, List.take_append_drop]

/-- Chainedness is monotone in the low bound. -/
theorem segsChainedB_mono (bound : Nat) :
    ∀ (l : List Seg) (lo lo2 : Nat), lo2 ≤ lo →
      segsChainedB bound lo l = true → segsChainedB bound lo2 l = true := by
  intro l
  cases l with
  | nil => intro lo lo2 _ _; rfl
  | cons seg rest =>
    intro lo lo2 hle h
    simp only [segsChainedB, Bool.and_eq_true, decide_eq_true_eq] at h ⊢
    exact ⟨by omega, h.2⟩

/-- A rebuild from an earlier offset keeps the slice up to a chained
position verbatim. -/
theorem rebuildSegs_shift (p : List Char) (g : Nat → Seg → List Char) :
    ∀ (l : List (Nat × Seg)) (off k : Nat), off ≤ k →
      segsChainedB p.length k (l.map Prod.snd) = true →
      rebuildSegs p g off l = sliceL p off k ++ rebuildSegs p g k l := by
  intro l
  cases l with
  | nil =>
    intro off k h1 _
    simp only [rebuildSegs]
    exact drop_eq_slice_append p off k h1
  | cons is rest =>
    intro off k h1 h2
    obtain ⟨i, seg⟩ := is
    simp only [List.map_cons, segsChainedB, Bool.and_eq_true, decide_eq_true_eq] at h2
    simp only [rebuildSegs]
    rw [sliceL_glue p off k seg.start h1 h2.1]
    simp [List.append_assoc]

/-- The source's last-to-first splice loop over chained spans equals the
forward rebuild: each span receives its produced tag, all text outside the
spans is kept. -/
theorem foldr_splice_eq_rebuild (p : List Char) (g : Nat → Seg → List Char) :
    ∀ l : List (Nat × Seg),
      segsChainedB p.length 0 (l.map Prod.snd) = true →
      List.foldr (fun iseg res =>
        listSplice res iseg.2.start iseg.2.stop (g iseg.1 iseg.2)) p l =
        rebuildSegs p g 0 l := by
  intro l
  induction l with
  | nil =>
    intro _
    simp [rebuildSegs]
  | cons is rest ih =>
    intro h
    obtain ⟨i, seg⟩ := is
    simp only [List.map_cons, segsChainedB, Bool.and_eq_true, decide_eq_true_eq] at h
    obtain ⟨h1, h2, h3, h4⟩ := h
    have hrest0 : segsChainedB p.length 0 (rest.map Prod.snd) = true :=
      segsChainedB_mono p.length (rest.map Prod.snd) seg.stop 0 (by omega) h4
    rw [List.foldr_cons, ih hrest0,
      rebuildSegs_shift p g rest 0 seg.stop (by omega) h4]
    have hA : sliceL p 0 seg.stop = p.take seg.stop := by
      simp [sliceL]
    have hAlen : (p.take seg.stop).length = seg.stop := by
      simp only [List.length_take]
      omega
    generalize hT : rebuildSegs p g seg.stop rest = T
    rw [hA]
    simp only [listSplice, rebuildSegs]
    rw [hT]
    have ht1 : (p.take seg.stop ++ T).take seg.start = p.take seg.start := by
      rw [List.take_append_of_le_length (by rw [hAlen]; omega), List.take_take]
      congr 1
      omega
    have ht2 : (p.take seg.stop ++ T).drop seg.stop = T := List.drop_left' hAlen
    have hslice0 : sliceL p 0 seg.start = p.take seg.start := by simp [sliceL]
    rw [ht1, ht2, hslice0]

/-- Characterization of a successful tag parse: the input decomposes into
the serialized tag and the remainder; the attributes hold no closing
bracket, the text no opening bracket. -/
theorem parseWTag_eq (s attrs txt rest : List Char)
    (h : parseWTag s = some (attrs, txt, rest)) :
    s = "<w:t".toList ++ attrs ++ ['>'] ++ txt ++ "</w:t>".toList ++ rest ∧
      (∀ c ∈ attrs, c ≠ '>') ∧ (∀ c ∈ txt, c ≠ '<') := by
  rw [parseWTag.eq_def] at h
  split at h
  next s1 =>
    split at h
    next s3 heq1 =>
      split at h
      next s5 heq2 =>
        cases h
        refine ⟨?_, ?_, ?_⟩
        · have e1 := List.takeWhile_append_dropWhile (fun c => decide (c ≠ '>')) s1
          have e2 := List.takeWhile_append_dropWhile (fun c => decide (c ≠ '<')) s3
          rw [heq1] at e1
          rw [heq2] at e2
          conv_lhs => rw [← e1]
          conv_lhs => rw [← e2]
          simp
        · intro c hc
          have := List.mem_takeWhile_imp hc
          simpa using this
        · intro c hc
          have := List.mem_takeWhile_imp hc
          simpa using this
      next => cases h
    next => cases h
  next => cases h

/-- The scanner's segments are chained within the scanned bound. -/
theorem collectSegsF_chained :
    ∀ (fuel : Nat) (s : List Char) (off bound : Nat), off + s.length ≤ bound →
      segsChainedB bound off (collectSegsF fuel s off) = true := by
  intro fuel
  induction fuel with
  | zero => intro s off bound _; rfl
  | succ n ih =>
    intro s off bound hb
    cases s with
    | nil => rfl
    | cons c cs =>
      simp only [List.length_cons] at hb
      rw [collectSegsF]
      cases hw : parseWTag (c :: cs) with
      | some att =>
        obtain ⟨attrs, txt, rest⟩ := att
        obtain ⟨hdec, _, _⟩ := parseWTag_eq (c :: cs) attrs txt rest hw
        have hlen : rest.length ≤ cs.length + 1 := by
          have h2 := congrArg List.length hdec
          simp only [List.length_append, List.length_cons] at h2
          omega
        simp only [segsChainedB, Bool.and_eq_true, decide_eq_true_eq, List.length_cons]
        refine ⟨by omega, by omega, by omega, ?_⟩
        exact ih rest _ bound (by omega)
      | none =>
        dsimp only
        exact segsChainedB_mono bound _ (off + 1) off (by omega)
          (ih cs (off + 1) bound (by omega))

/-- Past the first segment, redistribution empties every fragment. -/
theorem enumFrom_map_flatten_nil (rt : List Char) :
    ∀ (l : List Seg) (n : Nat),
      ((List.enumFrom (n + 1) l).map
        (fun iseg => if iseg.1 = 0 then rt else ([] : List Char))).flatten = [] := by
  intro l
  induction l with
  | nil => intro n; rfl
  | cons s rest ih =>
    intro n
    simp only [List.enumFrom, List.map_cons, List.flatten_cons]
    rw [if_neg (by omega)]
    simpa using ih (n + 1)

/-- The redistributed fragment texts concatenate to the replaced text. -/
theorem enum_map_flatten_eq (rt : List Char) :
    ∀ (l : List Seg), l ≠ [] →
      ((l.enum.map (fun iseg => if iseg.1 = 0 then rt else ([] : List Char))).flatten =
        rt) := by
  intro l hl
  cases l with
  | nil => exact absurd rfl hl
  | cons s rest =>
    simp only [List.enum, List.enumFrom, List.map_cons, List.flatten_cons, if_pos rfl]
    rw [enumFrom_map_flatten_nil rt rest 0]
    simp

/-- Branch lemma: an unchanged (or fragment-free) Block is returned
byte-identical. -/
theorem replaceInParagraph_unchanged (p : List Char) (r : CompiledRegex)
    (replacement : List Char)
    (h : collectSegs p = [] ∨
      jsReplace ((collectSegs p).map Seg.text).flatten r replacement =
        ((collectSegs p).map Seg.text).flatten) :
    replaceInParagraph p r replacement = p := by
  simp only [replaceInParagraph]
  rcases h with h | h
  · rw [if_pos h]
  · by_cases hseg : collectSegs p = []
    · rw [if_pos hseg]
    · rw [if_neg hseg, if_pos h.symm]

/-- Branch lemma: a changed Block is the forward rebuild over its chained
segment spans. -/
theorem replaceInParagraph_changed (p : List Char) (r : CompiledRegex)
    (replacement replacedText : List Char) (hseg : collectSegs p ≠ [])
    (hrt : jsReplace ((collectSegs p).map Seg.text).flatten r replacement = replacedText)
    (hneq : replacedText ≠ ((collectSegs p).map Seg.text).flatten) :
    replaceInParagraph p r replacement =
      rebuildSegs p (newTagFor replacedText) 0 (collectSegs p).enum := by
  simp only [replaceInParagraph]
  rw [if_neg hseg, hrt, if_neg (fun hcontra => hneq hcontra.symm)]
  have hch : segsChainedB p.length 0 ((collectSegs p).enum.map Prod.snd) = true := by
    rw [List.enum_map_snd]
    exact collectSegsF_chained p.length p 0 p.length (by omega)
  rw [List.foldl_reverse]
  exact foldr_splice_eq_rebuild p (newTagFor replacedText) (collectSegs p).enum hch

/-! ### Claim theorems -/

/-- C7: for every options value and every text, compiling an empty
findString yields the null matcher (never one that matches everything),
scanning with it returns an empty sequence with zero count, and replaceAll
with it returns the input text unchanged. -/
theorem empty_find_string_is_no_match (o : Options) (text repl : List Char) :
    buildRegex [] o = Except.ok none ∧
    findMatches text [] o = Except.ok ⟨0, []⟩ ∧
    replaceAll text [] repl o = Except.ok text := by
  refine ⟨rfl, ?_, ?_⟩ <;> simp [findMatches, replaceAll, buildRegex]

/-- C6: for every text and every matcher the scan terminates with a finite
span list — at most one span per scan position, as a zero-length match
advances the position by one code unit — and over text `bb` the pattern
`a*` yields the three zero-length matches at positions 0, 1 and 2. -/
theorem zero_length_match_safety :
    (∀ (m : List Char → Nat → Option Nat) (text : List Char),
      (findLoop m text 0).length ≤ text.length + 1) ∧
    findMatches "bb".toList "a*".toList { isRegex := true } =
      Except.ok ⟨3, [⟨0, 0, []⟩, ⟨1, 1, []⟩, ⟨2, 2, []⟩]⟩ := by
  constructor
  · intro m text
    simpa [findLoop] using findLoopF_length_le m text (text.length + 1) 0
  · decide

/-- C1 (failing run): on a structured document, load, a successful
replace-all of `a` by `b`, then undo restores `currentText` but not the
payload of `currentZip`: the zip object was mutated in place and the undo
snapshot holds the same object, so the extracted payload text still shows
the replacement instead of the post-load text. -/
theorem undo_docx_payload_not_restored :
    currentZipText demoDocxLoaded = "hello a".toList ∧
    (handleReplaceAll demoDocxLoaded [⟨"a".toList, "b".toList⟩] {}).2 =
      ReplaceOutcome.done ∧
    (handleUndo demoDocxReplaced).currentText = "hello a".toList ∧
    (handleUndo demoDocxReplaced).currentZip = demoDocxLoaded.currentZip ∧
    currentZipText (handleUndo demoDocxReplaced) = "hello b".toList := by
  decide

/-- C2 (failing run): on a structured document a replace-all whose second
pair has an invalid pattern fails (the error is caught and reported), yet
the payload of `currentZip` already holds the first pair's replacement: the first
iteration mutated the zip object in place before the second pair threw. -/
theorem failed_replace_mutates_docx_payload :
    currentZipText demoDocxLoaded2 = "a".toList ∧
    (handleReplaceAll demoDocxLoaded2
        [⟨"a".toList, "b".toList⟩, ⟨"(".toList, "x".toList⟩] { isRegex := true }).2 =
      ReplaceOutcome.failed ∧
    (handleReplaceAll demoDocxLoaded2
        [⟨"a".toList, "b".toList⟩, ⟨"(".toList, "x".toList⟩]
        { isRegex := true }).1.currentZip = demoDocxLoaded2.currentZip ∧
    currentZipText ((handleReplaceAll demoDocxLoaded2
        [⟨"a".toList, "b".toList⟩, ⟨"(".toList, "x".toList⟩] { isRegex := true }).1) =
      "b".toList := by
  decide

/-- C3 (counterexample): the scan/preview path does crash on a malformed
pattern — `renderTextPreview` calls `findMatches` with no catch, and on the
invalid regex `(` the compile error propagates out of the render call. -/
theorem preview_crashes_on_invalid_pattern :
    renderTextPreview "bb".toList "(".toList { isRegex := true } = Except.error () := by
  decide

/-- C3 (amended): an invalid pattern fails compilation with the pattern
error and no replacement occurs — `handleReplaceAll` catches the error and
reports failure, leaving a text document's `currentText` and a structured
document's payload heap unchanged when the invalid pair is first — but the
scan/preview path (`findMatches` and its callers) propagates the error
instead of recovering. -/
theorem invalid_pattern_handling (p r text : List Char) (o : Options) (st : AppState)
    (h : buildRegex p o = Except.error ()) :
    findMatches text p o = Except.error () ∧
    (st.fileType = some FType.txt →
      (handleReplaceAll st [⟨p, r⟩] o).1.currentText = st.currentText ∧
      (handleReplaceAll st [⟨p, r⟩] o).2 = ReplaceOutcome.failed) ∧
    (st.fileType = some FType.docx →
      (handleReplaceAll st [⟨p, r⟩] o).1.heap = st.heap ∧
      (handleReplaceAll st [⟨p, r⟩] o).2 = ReplaceOutcome.failed) := by
  refine ⟨?_, ?_, ?_⟩
  · simp [findMatches, h]
  · intro hft
    simp [handleReplaceAll, hft, applyTextLoop, replaceAll, h]
  · intro hft
    cases hz : st.currentZip with
    | none => simp [handleReplaceAll, hft, hz]
    | some ref =>
      simp [handleReplaceAll, hft, hz, applyDocxLoop, replaceInDocx, replaceInXml, h]

/-- C3 witness: the amended handling at the concrete invalid pattern `(`
over a loaded text document. -/
theorem invalid_pattern_handling_witness :
    findMatches "bb".toList "(".toList { isRegex := true } = Except.error () ∧
    (handleReplaceAll (loadTxtFile initialState "bb".toList)
        [⟨"(".toList, "x".toList⟩] { isRegex := true }).1.currentText =
      (loadTxtFile initialState "bb".toList).currentText ∧
    (handleReplaceAll (loadTxtFile initialState "bb".toList)
        [⟨"(".toList, "x".toList⟩] { isRegex := true }).2 = ReplaceOutcome.failed := by
  refine ⟨(invalid_pattern_handling "(".toList "x".toList "bb".toList { isRegex := true }
      (loadTxtFile initialState "bb".toList) (by decide)).1, ?_, ?_⟩
  · exact ((invalid_pattern_handling "(".toList "x".toList "bb".toList { isRegex := true }
      (loadTxtFile initialState "bb".toList) (by decide)).2.1 (by decide)).1
  · exact ((invalid_pattern_handling "(".toList "x".toList "bb".toList { isRegex := true }
      (loadTxtFile initialState "bb".toList) (by decide)).2.1 (by decide)).2

/-- C8: in literal mode exactly the pattern-syntax operator characters
`. * + ? ^ $ \x7b \x7d ( ) | [ ] \` are escaped, the escaped pattern parses
to the literal character sequence, and the compiled matcher matches the
findString literally: for every non-empty literal pattern, the scan count
equals the number of non-overlapping left-to-right occurrences in the text
(case rule applied per `caseSensitive`, `countOcc` being the spec's
counting property). -/
theorem literal_mode_escaping (cs : Bool) (p text : List Char) (hp : p ≠ []) :
    (∀ c : Char, escapeRegexChars [c] =
      if c ∈ ['.', '*', '+', '?', '^', '$', '{', '}', '(', ')', '|', '[', ']', '\\']
      then ['\\', c] else [c]) ∧
    parseRegex (escapeRegexChars p) = Except.ok (litPieces p) ∧
    ∃ res, findMatches text p
        { isCaseSensitive := cs, isWholeWord := false, isRegex := false } = Except.ok res ∧
      res.count = countOcc (!cs) p text := by
  refine ⟨?_, parse_escape p, ?_⟩
  · intro c
    show escapeRegexChars [c] = if c ∈ specialChars then ['\\', c] else [c]
    by_cases hc : c ∈ specialChars
    · simp [escapeRegexChars, isSpecialChar, hc]
    · simp [escapeRegexChars, isSpecialChar, hc]
  · rw [findMatches, buildRegex_lit cs p hp]
    refine ⟨_, rfl, ?_⟩
    show (findLoop (regexMatch ⟨litPieces p, !cs⟩) text 0).length = countOcc (!cs) p text
    have hb := findLoop_lit_count (!cs) text p hp (text.length + 1 - 0) 0 rfl
    rw [hb]
    rfl

/-- C8 witness: the literal pattern `a+b` (with operator characters) over
`a+bXa+b`: the scan count equals the occurrence count. -/
theorem literal_mode_escaping_witness :
    ∃ res, findMatches "a+bXa+b".toList "a+b".toList
        { isCaseSensitive := true, isWholeWord := false, isRegex := false } = Except.ok res ∧
      res.count = countOcc (!true) "a+b".toList "a+bXa+b".toList :=
  (literal_mode_escaping true "a+b".toList "a+bXa+b".toList (by decide)).2.2

example : countOcc false "a+b".toList "a+bXa+b".toList = 2 := by decide

example : (findMatches "a+bXa+b".toList "a+b".toList { isCaseSensitive := true }).map
    MatchResult.count = Except.ok 2 := by decide

example : countOcc true "ab".toList "xAbab".toList = 2 := by decide

/-- C9: replacement pairs are applied strictly in the supplied order, each
pair's output being the exact input to the next: on a text document a
successful replace-all commits the sequential fold of `replaceAll` over the
pairs, and on a structured document it writes the sequential fold of
`replaceInXml` (`applyXmlSeq`) into the working zip's payload; in
particular `[a to b, b to c]` over text `a` yields `c`, on both document
kinds. -/
theorem sequential_pair_application :
    (∀ (st : AppState) (pairs : List Pair) (o : Options) (t2 : List Char),
      st.fileType = some FType.txt → pairs ≠ [] →
      applyTextLoop o st.currentText pairs = Except.ok t2 →
      handleReplaceAll st pairs o =
        ({ st with
            undoText := some st.currentText
            undoZip := st.currentZip
            currentText := t2
            hasReplaced := true }, ReplaceOutcome.done)) ∧
    (∀ (st : AppState) (pairs : List Pair) (o : Options) (ref : Nat) (xml2 : List Char),
      st.fileType = some FType.docx → pairs ≠ [] → st.currentZip = some ref →
      ref < st.heap.length →
      applyXmlSeq o (st.heap.getD ref []) pairs = Except.ok xml2 →
      handleReplaceAll st pairs o =
        ({ st with
            undoText := some st.currentText
            undoZip := st.currentZip
            heap := st.heap.set ref xml2
            currentText := extractTextFromXml xml2
            hasReplaced := true },
          ReplaceOutcome.done)) ∧
    (handleReplaceAll (loadTxtFile initialState "a".toList)
        [⟨"a".toList, "b".toList⟩, ⟨"b".toList, "c".toList⟩] {}).1.currentText =
      "c".toList ∧
    extractTextFromXml
        ((handleReplaceAll (loadDocxFile initialState "<w:p ><w:t>a</w:t></w:p>".toList)
          [⟨"a".toList, "b".toList⟩, ⟨"b".toList, "c".toList⟩] {}).1.heap.getD 1 []) =
      "c".toList := by
  refine ⟨handleReplaceAll_txt_ok, ?_, by decide, by decide⟩
  intro st pairs o ref xml2 hft hp hz href h
  have hloop := applyDocxLoop_ok o ref pairs st.heap xml2 href h
  simp [handleReplaceAll, hp, hft, hz, hloop, list_getElem_set st.heap ref xml2 href]

/-- C10: frame property of the structured rewrite — `replaceInXml` is the
chunk decomposition of the payload with `replaceInParagraph` applied to the
paragraph-element chunks only: joining the chunks verbatim rebuilds the
payload exactly (so every character outside a `<w:p>...</w:p>` element,
including any text tag not enclosed in a paragraph, is returned unchanged),
and every paragraph chunk is one whole paragraph element. -/
theorem replaceInXml_frame (xml pattern replacement : List Char) (o : Options)
    (r : CompiledRegex) (hr : buildRegex pattern o = Except.ok (some r)) :
    replaceInXml xml pattern replacement o =
      Except.ok (chunkJoin (fun p => replaceInParagraph p r replacement) (splitParas xml)) ∧
    chunkJoin (fun p => p) (splitParas xml) = xml ∧
    (∀ p, Chunk.para p ∈ splitParas xml →
      ∃ d mid, (d = ' ' ∨ d = '>') ∧
        p = "<w:p".toList ++ (d :: (mid ++ "</w:p>".toList))) := by
  refine ⟨?_, splitParasF_join xml.length xml, splitParasF_para_shape xml.length xml⟩
  rw [replaceInXml, hr]
  unfold paraScan splitParas
  dsimp only
  rw [paraScanF_eq_chunks]

/-- C10 witness: a payload with text outside the paragraph element. -/
theorem replaceInXml_frame_witness :
    replaceInXml "A<w:t>x</w:t><w:p ><w:t>a</w:t></w:p>B".toList "a".toList "b".toList {} =
      Except.ok (chunkJoin
        (fun p => replaceInParagraph p ⟨litPieces "a".toList, true⟩ "b".toList)
        (splitParas "A<w:t>x</w:t><w:p ><w:t>a</w:t></w:p>B".toList)) ∧
    chunkJoin (fun p => p)
        (splitParas "A<w:t>x</w:t><w:p ><w:t>a</w:t></w:p>B".toList) =
      "A<w:t>x</w:t><w:p ><w:t>a</w:t></w:p>B".toList ∧
    (∀ p, Chunk.para p ∈ splitParas "A<w:t>x</w:t><w:p ><w:t>a</w:t></w:p>B".toList →
      ∃ d mid, (d = ' ' ∨ d = '>') ∧
        p = "<w:p".toList ++ (d :: (mid ++ "</w:p>".toList))) :=
  replaceInXml_frame "A<w:t>x</w:t><w:p ><w:t>a</w:t></w:p>B".toList "a".toList "b".toList
    {} ⟨litPieces "a".toList, true⟩ (by decide)

example :
    replaceInXml "A<w:t>x</w:t><w:p ><w:t>a</w:t></w:p>B".toList "a".toList "b".toList {} =
      Except.ok "A<w:t>x</w:t><w:p ><w:t xml:space=\"preserve\">b</w:t></w:p>B".toList := by
  decide

/-- C4: per-Block postcondition of the structured replacer — if the
flat-replaced text equals the Block's concatenated fragment text (or the
Block has no text fragments), the Block's serialized form is returned
byte-identical; otherwise the result is the forward rebuild in which the
first fragment's span carries the entire new text, every other fragment's
span carries the empty text (`newTagFor`), all markup between and around
the spans kept verbatim — so the resulting fragment texts concatenate to
the flat-replaced text. -/
theorem structured_replacer_postcondition (p : List Char) (r : CompiledRegex)
    (replacement : List Char) :
    ((collectSegs p = [] ∨
        jsReplace ((collectSegs p).map Seg.text).flatten r replacement =
          ((collectSegs p).map Seg.text).flatten) →
      replaceInParagraph p r replacement = p) ∧
    (∀ replacedText, collectSegs p ≠ [] →
      jsReplace ((collectSegs p).map Seg.text).flatten r replacement = replacedText →
      replacedText ≠ ((collectSegs p).map Seg.text).flatten →
      replaceInParagraph p r replacement =
        rebuildSegs p (newTagFor replacedText) 0 (collectSegs p).enum ∧
      ((collectSegs p).enum.map
          (fun iseg => if iseg.1 = 0 then replacedText else ([] : List Char))).flatten =
        replacedText) := by
  constructor
  · exact replaceInParagraph_unchanged p r replacement
  · intro rt hseg hrt hneq
    exact ⟨replaceInParagraph_changed p r replacement rt hseg hrt hneq,
      enum_map_flatten_eq rt (collectSegs p) hseg⟩

/-- C4 witness: the spec's cross-fragment example — fragments `fo`,
`o bar`, replacing `foo` by `baz`. -/
theorem structured_replacer_postcondition_witness :
    replaceInParagraph "<w:p><w:r><w:t>fo</w:t><w:t>o bar</w:t></w:r></w:p>".toList
        ⟨litPieces "foo".toList, true⟩ "baz".toList =
      rebuildSegs "<w:p><w:r><w:t>fo</w:t><w:t>o bar</w:t></w:r></w:p>".toList
        (newTagFor "baz bar".toList) 0
        (collectSegs "<w:p><w:r><w:t>fo</w:t><w:t>o bar</w:t></w:r></w:p>".toList).enum ∧
    ((collectSegs "<w:p><w:r><w:t>fo</w:t><w:t>o bar</w:t></w:r></w:p>".toList).enum.map
        (fun iseg => if iseg.1 = 0 then "baz bar".toList else ([] : List Char))).flatten =
      "baz bar".toList :=
  (structured_replacer_postcondition
      "<w:p><w:r><w:t>fo</w:t><w:t>o bar</w:t></w:r></w:p>".toList
      ⟨litPieces "foo".toList, true⟩ "baz".toList).2
    "baz bar".toList (by decide) (by decide) (by decide)

example :
    replaceInParagraph "<w:p><w:r><w:t>fo</w:t><w:t>o bar</w:t></w:r></w:p>".toList
        ⟨litPieces "foo".toList, true⟩ "baz".toList =
      "<w:p><w:r><w:t xml:space=\"preserve\">baz bar</w:t><w:t></w:t></w:r></w:p>".toList := by
  decide

/-- C5 (counterexample): a fragment's original formatting attributes are
not carried through untouched — the first fragment's attribute
`w:x=\x221\x22` is present in the input Block but dropped from the output,
replaced by the whitespace-preservation attribute, when its text
changes. -/
theorem first_fragment_attrs_dropped :
    containsSeq " w:x=\"1\"".toList
        "<w:p ><w:t w:x=\"1\">aq</w:t></w:p>".toList = true ∧
    replaceInParagraph "<w:p ><w:t w:x=\"1\">aq</w:t></w:p>".toList
        ⟨litPieces "a".toList, true⟩ "b".toList =
      "<w:p ><w:t xml:space=\"preserve\">bq</w:t></w:p>".toList ∧
    containsSeq " w:x=\"1\"".toList
        (replaceInParagraph "<w:p ><w:t w:x=\"1\">aq</w:t></w:p>".toList
          ⟨litPieces "a".toList, true⟩ "b".toList) = false := by
  decide

/-- C5 (amended): attribute handling of the structured replacer — a Block
whose text is unchanged is returned byte-identical, so all fragment
attributes pass through untouched; in the redistribution branch the result
is the rebuild over the fragment spans in which every fragment after the
first keeps its original attributes on its emptied tag, while the first
fragment's tag carries exactly the whitespace-preservation attribute when
the new text is non-empty (the original attributes are dropped) and keeps
its original attributes when the new text is empty. -/
theorem fragment_attrs_passthrough (p : List Char) (r : CompiledRegex)
    (replacement replacedText : List Char) :
    ((collectSegs p = [] ∨
        jsReplace ((collectSegs p).map Seg.text).flatten r replacement =
          ((collectSegs p).map Seg.text).flatten) →
      replaceInParagraph p r replacement = p) ∧
    (collectSegs p ≠ [] →
      jsReplace ((collectSegs p).map Seg.text).flatten r replacement = replacedText →
      replacedText ≠ ((collectSegs p).map Seg.text).flatten →
      replaceInParagraph p r replacement =
        rebuildSegs p (newTagFor replacedText) 0 (collectSegs p).enum) ∧
    (∀ i seg, 1 ≤ i → newTagFor replacedText i seg =
      "<w:t".toList ++ seg.attrs ++ ['>'] ++ "</w:t>".toList) ∧
    (replacedText ≠ [] → ∀ seg : Seg, newTagFor replacedText 0 seg =
      "<w:t".toList ++ preserveAttr ++ ['>'] ++ replacedText ++ "</w:t>".toList) ∧
    (replacedText = [] → ∀ seg, newTagFor replacedText 0 seg =
      "<w:t".toList ++ seg.attrs ++ ['>'] ++ "</w:t>".toList) := by
  refine ⟨replaceInParagraph_unchanged p r replacement,
    replaceInParagraph_changed p r replacement replacedText, ?_, ?_, ?_⟩
  · intro i seg hi
    have hi0 : i ≠ 0 := by omega
    simp [newTagFor, hi0]
  · intro hne seg
    have hlen : replacedText.length > 0 := by
      cases replacedText with
      | nil => exact absurd rfl hne
      | cons c cs => simp
    simp [newTagFor, hlen]
  · intro he seg
    subst he
    simp [newTagFor]

/-- C5 witness: the amended attribute handling at the counterexample
input. -/
theorem fragment_attrs_passthrough_witness :
    replaceInParagraph "<w:p ><w:t w:x=\"1\">aq</w:t></w:p>".toList
        ⟨litPieces "a".toList, true⟩ "b".toList =
      rebuildSegs "<w:p ><w:t w:x=\"1\">aq</w:t></w:p>".toList
        (newTagFor "bq".toList) 0
        (collectSegs "<w:p ><w:t w:x=\"1\">aq</w:t></w:p>".toList).enum ∧
    newTagFor "bq".toList 1 ⟨" a=\"2\"".toList, "t".toList, 0, 0⟩ =
      "<w:t".toList ++ " a=\"2\"".toList ++ ['>'] ++ "</w:t>".toList ∧
    newTagFor "bq".toList 0 ⟨" a=\"2\"".toList, "t".toList, 0, 0⟩ =
      "<w:t".toList ++ preserveAttr ++ ['>'] ++ "bq".toList ++ "</w:t>".toList :=
  ⟨(fragment_attrs_passthrough "<w:p ><w:t w:x=\"1\">aq</w:t></w:p>".toList
      ⟨litPieces "a".toList, true⟩ "b".toList "bq".toList).2.1
      (by decide) (by decide) (by decide),
   (fragment_attrs_passthrough "<w:p ><w:t w:x=\"1\">aq</w:t></w:p>".toList
      ⟨litPieces "a".toList, true⟩ "b".toList "bq".toList).2.2.1 1
      ⟨" a=\"2\"".toList, "t".toList, 0, 0⟩ (by omega),
   (fragment_attrs_passthrough "<w:p ><w:t w:x=\"1\">aq</w:t></w:p>".toList
      ⟨litPieces "a".toList, true⟩ "b".toList "bq".toList).2.2.2.1 (by decide)
      ⟨" a=\"2\"".toList, "t".toList, 0, 0⟩⟩

/-- C9 witness: the sequential text example through the state machine. -/
theorem sequential_pair_application_witness :
    handleReplaceAll (loadTxtFile initialState "a".toList)
        [⟨"a".toList, "b".toList⟩, ⟨"b".toList, "c".toList⟩] {} =
      ({ loadTxtFile initialState "a".toList with
          undoText := some "a".toList
          undoZip := none
          currentText := "c".toList
          hasReplaced := true }, ReplaceOutcome.done) :=
  sequential_pair_application.1 (loadTxtFile initialState "a".toList)
    [⟨"a".toList, "b".toList⟩, ⟨"b".toList, "c".toList⟩] {} "c".toList
    (by decide) (by decide) (by decide)

end Replacit
